import Mathlib

/-!
Verification of the Minimax library (`src/Minimax.h`): a templated
depth-bounded minimax search with alpha-beta pruning for two-player
zero-sum games.

The C++ class `Minimax<GameState, Move, MaxMoves, MaxDepth>` is embedded
shallowly:

* the pure-virtual interface `Minimax::GameLogic` becomes the structure
  `GameLogic`, whose `generateMoves` returns the list of moves the
  capability writes into the caller-supplied buffer (the `MaxMoves`
  capacity bound is the capability's obligation and does not change the
  engine's behaviour for conforming capabilities);
* the member function `Minimax::minimax` becomes `minimax`, which returns
  the score together with the number of recursive invocations in the
  subtree (the `_nodesSearched++` bookkeeping) — its per-node move loops
  `maxLoop`/`minLoop` additionally report the list of sibling moves that
  were actually applied, so that pruning behaviour is observable;
* `Minimax::findBestMove` becomes `findBestMove`; the mutable fields
  `_bestScore` and `_nodesSearched` are threaded explicitly as an
  `EngineState` (the constructor initializes `_nodesSearched` to 0 and
  leaves `_bestScore` indeterminate, hence `EngineState` is an input);
* the C++ `depth` parameter is modelled as `Nat`; the root call passes
  `MaxDepth - 1` (truncated subtraction), which agrees with the source
  for every configuration with `MaxDepth ≥ 1`, the only configurations
  for which the source's `int` recursion reaches its `depth == 0` base
  case (see the `Int`-depth model `minimaxFuelZ` below).
-/

namespace MinimaxSpec

/-- The `Minimax::GameLogic` capability interface of `Minimax.h`:
`evaluate`, `generateMoves`, `applyMove`, `isTerminal`,
`isMaximizingPlayer`.  `applyMove` is the functional form of the
in-place C++ mutation: it returns the state obtained by applying the
move. -/
structure GameLogic (GameState Move : Type) where
  evaluate : GameState → Int
  generateMoves : GameState → List Move
  applyMove : GameState → Move → GameState
  isTerminal : GameState → Bool
  isMaximizingPlayer : GameState → Bool

/-- The mutable instance fields `_bestScore` and `_nodesSearched` of the
`Minimax` class, threaded explicitly. -/
structure EngineState where
  bestScore : Int
  nodesSearched : Nat
deriving DecidableEq, Repr

/-- `Minimax::getBestScore`. -/
def getBestScore (e : EngineState) : Int :=
  e.bestScore

/-- `Minimax::getNodesSearched`. -/
def getNodesSearched (e : EngineState) : Nat :=
  e.nodesSearched

variable {GameState Move : Type}

/-- The `maximizingPlayer` branch of the move loop in `Minimax::minimax`:
running maximum `maxEval` (seeded `-32000` by the caller), window
`(alpha, beta)`, beta cutoff after updating `alpha`.  Besides the score
it returns the total node count reported by the child searches and the
list of sibling moves that were actually applied (the loop stops at a
cutoff, so pruned siblings do not appear). -/
def maxLoop (rec : GameState → Int → Int → Int × Nat)
    (applyMove : GameState → Move → GameState) (state : GameState) :
    List Move → Int → Int → Int → Int × Nat × List Move
  | [], maxEval, _alpha, _beta => (maxEval, 0, [])
  | m :: ms, maxEval, alpha, beta =>
    let r := rec (applyMove state m) alpha beta
    let maxEval1 := max maxEval r.1
    let alpha1 := max alpha r.1
    if beta ≤ alpha1 then (maxEval1, r.2, [m])
    else
      let rest := maxLoop rec applyMove state ms maxEval1 alpha1 beta
      (rest.1, r.2 + rest.2.1, m :: rest.2.2)

/-- The minimizing branch of the move loop in `Minimax::minimax`:
running minimum `minEval` (seeded `32000` by the caller), alpha cutoff
after updating `beta`. -/
def minLoop (rec : GameState → Int → Int → Int × Nat)
    (applyMove : GameState → Move → GameState) (state : GameState) :
    List Move → Int → Int → Int → Int × Nat × List Move
  | [], minEval, _alpha, _beta => (minEval, 0, [])
  | m :: ms, minEval, alpha, beta =>
    let r := rec (applyMove state m) alpha beta
    let minEval1 := min minEval r.1
    let beta1 := min beta r.1
    if beta1 ≤ alpha then (minEval1, r.2, [m])
    else
      let rest := minLoop rec applyMove state ms minEval1 alpha beta1
      (rest.1, r.2 + rest.2.1, m :: rest.2.2)

/-- `Minimax::minimax(state, depth, alpha, beta, maximizingPlayer)`.
Returns `(score, nodes)` where `nodes` is the number of invocations of
the procedure in this subtree, i.e. the contribution to
`_nodesSearched` (the procedure increments the counter on entry, so
every invocation, leaf or interior, counts exactly once). -/
def minimax (L : GameLogic GameState Move) :
    Nat → GameState → Int → Int → Bool → Int × Nat
  | 0, state, _alpha, _beta, _mx => (L.evaluate state, 1)
  | depth + 1, state, alpha, beta, mx =>
    if L.isTerminal state then (L.evaluate state, 1)
    else
      let moves := L.generateMoves state
      if mx then
        let r := maxLoop (fun t a b => minimax L depth t a b false)
          L.applyMove state moves (-32000) alpha beta
        (r.1, 1 + r.2.1)
      else
        let r := minLoop (fun t a b => minimax L depth t a b true)
          L.applyMove state moves 32000 alpha beta
        (r.1, 1 + r.2.1)

/-- The root move loop of `Minimax::findBestMove`: strict improvement
(`>` when maximizing, `<` when minimizing) of the running best score,
accumulating the node counts of the root child searches.  `score m` is
`minimax` applied to the position after `m`. -/
def rootLoop (score : Move → Int × Nat) :
    List Move → Move → Int → Bool → Nat → Move × Int × Nat
  | [], bestMove, bestScore, _isMax, nodes => (bestMove, bestScore, nodes)
  | m :: ms, bestMove, bestScore, true, nodes =>
    let r := score m
    if r.1 > bestScore then rootLoop score ms m r.1 true (nodes + r.2)
    else rootLoop score ms bestMove bestScore true (nodes + r.2)
  | m :: ms, bestMove, bestScore, false, nodes =>
    let r := score m
    if r.1 < bestScore then rootLoop score ms m r.1 false (nodes + r.2)
    else rootLoop score ms bestMove bestScore false (nodes + r.2)

/-- `Minimax::findBestMove(state)`, with the engine's mutable fields
threaded through: takes the fields' values before the call and returns
the chosen move together with the fields' values after the call.  When
`generateMoves` yields no move the source returns the default `Move`
before touching `_bestScore` or `_nodesSearched`, so the prior
`EngineState` is returned unchanged. -/
def findBestMove (L : GameLogic GameState Move) [Inhabited Move]
    (maxDepth : Nat) (state : GameState) (es : EngineState) :
    Move × EngineState :=
  let moves := L.generateMoves state
  if moves.length = 0 then (default, es)
  else
    let isMax := L.isMaximizingPlayer state
    let r := rootLoop
      (fun m => minimax L (maxDepth - 1) (L.applyMove state m)
        (-32000) 32000 (!isMax))
      moves default (if isMax then -32000 else 32000) isMax 0
    (r.1, ⟨r.2.1, r.2.2⟩)

/-! ## Spec-side reference: exhaustive minimax without pruning

`minimaxPlain`, `rootLoopPlain` and `findBestMovePlain` are modelled from
the spec's words for the alpha-beta equivalence property (§8): "the
score/move obtained by exhaustive minimax without pruning" — the same
depth-bounded recursion and root selection rule, but every move of every
node is examined and no window is threaded. -/

/-- Running maximum over the scores of a move list, seeded by `acc`. -/
def foldMax (f : Move → Int) : List Move → Int → Int
  | [], acc => acc
  | m :: ms, acc => foldMax f ms (max acc (f m))

/-- Running minimum over the scores of a move list, seeded by `acc`. -/
def foldMin (f : Move → Int) : List Move → Int → Int
  | [], acc => acc
  | m :: ms, acc => foldMin f ms (min acc (f m))

/-- Exhaustive depth-bounded minimax without alpha-beta pruning: same
base cases and same `∓32000` seeds as `minimax`, but no window and no
cutoff. -/
def minimaxPlain (L : GameLogic GameState Move) :
    Nat → GameState → Bool → Int
  | 0, state, _mx => L.evaluate state
  | depth + 1, state, mx =>
    if L.isTerminal state then L.evaluate state
    else if mx then
      foldMax (fun m => minimaxPlain L depth (L.applyMove state m) false)
        (L.generateMoves state) (-32000)
    else
      foldMin (fun m => minimaxPlain L depth (L.applyMove state m) true)
        (L.generateMoves state) 32000

/-- Root selection of the exhaustive reference engine: identical strict
improvement rule, scores taken from the unpruned search. -/
def rootLoopPlain (score : Move → Int) :
    List Move → Move → Int → Bool → Move × Int
  | [], bestMove, bestScore, _isMax => (bestMove, bestScore)
  | m :: ms, bestMove, bestScore, true =>
    if score m > bestScore then rootLoopPlain score ms m (score m) true
    else rootLoopPlain score ms bestMove bestScore true
  | m :: ms, bestMove, bestScore, false =>
    if score m < bestScore then rootLoopPlain score ms m (score m) false
    else rootLoopPlain score ms bestMove bestScore false

/-- The exhaustive reference for `findBestMove`: returns the chosen move
and the best score of the unpruned search (the prior best-score value is
returned untouched when there is no legal move, as in the engine). -/
def findBestMovePlain (L : GameLogic GameState Move) [Inhabited Move]
    (maxDepth : Nat) (state : GameState) (prevScore : Int) : Move × Int :=
  let moves := L.generateMoves state
  if moves.length = 0 then (default, prevScore)
  else
    let isMax := L.isMaximizingPlayer state
    rootLoopPlain
      (fun m => minimaxPlain L (maxDepth - 1) (L.applyMove state m) (!isMax))
      moves default (if isMax then -32000 else 32000) isMax

/-! ## Fold lemmas -/

theorem le_foldMax (f : Move → Int) :
    ∀ (ms : List Move) (a : Int), a ≤ foldMax f ms a
  | [], _ => le_refl _
  | m :: ms, a => le_trans (le_max_left a (f m)) (le_foldMax f ms _)

theorem foldMin_le (f : Move → Int) :
    ∀ (ms : List Move) (a : Int), foldMin f ms a ≤ a
  | [], _ => le_refl _
  | m :: ms, a => le_trans (foldMin_le f ms _) (min_le_left a (f m))

theorem foldMax_mono (f : Move → Int) :
    ∀ (ms : List Move) {a b : Int}, a ≤ b → foldMax f ms a ≤ foldMax f ms b
  | [], _, _, h => h
  | m :: ms, _, _, h => foldMax_mono f ms (max_le_max h (le_refl (f m)))

theorem foldMin_mono (f : Move → Int) :
    ∀ (ms : List Move) {a b : Int}, a ≤ b → foldMin f ms a ≤ foldMin f ms b
  | [], _, _, h => h
  | m :: ms, _, _, h => foldMin_mono f ms (min_le_min h (le_refl (f m)))

theorem foldMax_max (f : Move → Int) :
    ∀ (ms : List Move) (a c : Int),
      foldMax f ms (max a c) = max (foldMax f ms a) c
  | [], _, _ => rfl
  | m :: ms, a, c => by
    simp only [foldMax]
    rw [max_assoc, max_comm c (f m), ← max_assoc, foldMax_max f ms]

theorem foldMin_min (f : Move → Int) :
    ∀ (ms : List Move) (a c : Int),
      foldMin f ms (min a c) = min (foldMin f ms a) c
  | [], _, _ => rfl
  | m :: ms, a, c => by
    simp only [foldMin]
    rw [min_assoc, min_comm c (f m), ← min_assoc, foldMin_min f ms]

/-! ## Knuth–Moore correctness of the pruned search

`kmRel α β r v` is the classical relation between the value `r` returned
by fail-soft alpha-beta with window `(α, β)` and the exhaustive value
`v`: a result inside the window is exact, a result at or below `α` is an
upper bound on `v`, a result at or above `β` is a lower bound on `v`. -/
def kmRel (alpha beta r v : Int) : Prop :=
  (r ≤ alpha → v ≤ r) ∧ (alpha < r → r < beta → v = r) ∧ (beta ≤ r → r ≤ v)

theorem kmRel_refl (alpha beta r : Int) : kmRel alpha beta r r :=
  ⟨fun _ => le_refl r, fun _ _ => rfl, fun _ => le_refl r⟩

theorem maxLoop_km (rec : GameState → Int → Int → Int × Nat)
    (recV : GameState → Int)
    (apply : GameState → Move → GameState) (state : GameState)
    (hrec : ∀ t a b, a < b → kmRel a b (rec t a b).1 (recV t)) :
    ∀ (ms : List Move) (acc alpha beta : Int), alpha < beta →
      acc ≤ (maxLoop rec apply state ms acc alpha beta).1 ∧
      kmRel alpha beta (maxLoop rec apply state ms acc alpha beta).1
        (foldMax (fun m => recV (apply state m)) ms acc) := by
  intro ms
  induction ms with
  | nil =>
    intro acc alpha beta _
    exact ⟨le_refl _, kmRel_refl _ _ _⟩
  | cons m ms ih =>
    intro acc alpha beta hab
    set c := (rec (apply state m) alpha beta).1 with hc
    set cV := recV (apply state m) with hcV
    have hkmc : kmRel alpha beta c cV := hrec _ _ _ hab
    simp only [maxLoop, foldMax]
    by_cases hcut : beta ≤ max alpha c
    · rw [if_pos hcut]
      have hbc : beta ≤ c := by
        rcases max_cases alpha c with ⟨h1, _⟩ | ⟨h1, _⟩ <;> omega
      have hccV : c ≤ cV := hkmc.2.2 hbc
      refine ⟨le_max_left _ _, ?_, ?_, ?_⟩
      · intro h
        have := le_max_right acc c
        omega
      · intro h1 h2
        have := le_max_right acc c
        omega
      · intro _
        calc max acc c ≤ max acc cV := max_le_max (le_refl acc) hccV
          _ ≤ foldMax (fun m => recV (apply state m)) ms (max acc cV) :=
            le_foldMax _ _ _
    · rw [if_neg hcut]
      have hacb : max alpha c < beta := lt_of_not_le hcut
      obtain ⟨ihacc, ihkm⟩ := ih (max acc c) (max alpha c) beta hacb
      have haccr : acc ≤ (maxLoop rec apply state ms (max acc c)
          (max alpha c) beta).1 := le_trans (le_max_left _ _) ihacc
      set r := (maxLoop rec apply state ms (max acc c) (max alpha c) beta).1
        with hr
      refine ⟨haccr, ?_⟩
      rcases le_or_lt c alpha with hca | hac
      · -- child failed low: its exhaustive value is at most `c`
        have hcVc : cV ≤ c := hkmc.1 hca
        have hmax : max alpha c = alpha := max_eq_left hca
        rw [hmax] at ihkm
        have hseed : max acc c = max (max acc cV) c := by
          rcases le_or_lt acc cV with h | h <;>
          · rcases le_or_lt acc c with h2 | h2 <;> omega
        have hvA : foldMax (fun m => recV (apply state m)) ms (max acc c)
            = max (foldMax (fun m => recV (apply state m)) ms (max acc cV)) c := by
          rw [hseed, foldMax_max]
        set v := foldMax (fun m => recV (apply state m)) ms (max acc cV) with hv
        refine ⟨?_, ?_, ?_⟩
        · intro h
          have h1 := ihkm.1 h
          rw [hvA] at h1
          have := le_max_left v c
          omega
        · intro h1 h2
          have h3 := ihkm.2.1 h1 h2
          rw [hvA] at h3
          rcases max_cases v c with ⟨h4, _⟩ | ⟨h4, _⟩ <;> omega
        · intro h
          have h1 := ihkm.2.2 h
          rw [hvA] at h1
          rcases max_cases v c with ⟨h4, _⟩ | ⟨h4, _⟩ <;> omega
      · -- child value inside the window (it cannot fail high here)
        have hcb : c < beta := by
          rcases max_cases alpha c with ⟨h1, _⟩ | ⟨h1, _⟩ <;> omega
        have hcVc : cV = c := hkmc.2.1 hac hcb
        have hmax : max alpha c = c := max_eq_right (le_of_lt hac)
        rw [hmax] at ihkm
        have h6 : recV (apply state m) = c := by rw [← hcV]; exact hcVc
        rw [h6]
        have hcr : c ≤ r := le_trans (le_max_right acc c) ihacc
        refine ⟨?_, ?_, ?_⟩
        · intro h
          omega
        · intro h1 h2
          rcases eq_or_lt_of_le hcr with hcr' | hcr'
          · have h3 := ihkm.1 (le_of_eq hcr'.symm)
            have h4 := le_foldMax (fun m => recV (apply state m)) ms (max acc c)
            have h5 := le_max_right acc c
            omega
          · exact ihkm.2.1 hcr' h2
        · exact ihkm.2.2

theorem minLoop_km (rec : GameState → Int → Int → Int × Nat)
    (recV : GameState → Int)
    (apply : GameState → Move → GameState) (state : GameState)
    (hrec : ∀ t a b, a < b → kmRel a b (rec t a b).1 (recV t)) :
    ∀ (ms : List Move) (acc alpha beta : Int), alpha < beta →
      (minLoop rec apply state ms acc alpha beta).1 ≤ acc ∧
      kmRel alpha beta (minLoop rec apply state ms acc alpha beta).1
        (foldMin (fun m => recV (apply state m)) ms acc) := by
  intro ms
  induction ms with
  | nil =>
    intro acc alpha beta _
    exact ⟨le_refl _, kmRel_refl _ _ _⟩
  | cons m ms ih =>
    intro acc alpha beta hab
    set c := (rec (apply state m) alpha beta).1 with hc
    set cV := recV (apply state m) with hcV
    have hkmc : kmRel alpha beta c cV := hrec _ _ _ hab
    simp only [minLoop, foldMin]
    by_cases hcut : min beta c ≤ alpha
    · rw [if_pos hcut]
      have hca : c ≤ alpha := by
        rcases min_cases beta c with ⟨h1, _⟩ | ⟨h1, _⟩ <;> omega
      have hcVc : cV ≤ c := hkmc.1 hca
      refine ⟨min_le_left _ _, ?_, ?_, ?_⟩
      · intro _
        calc foldMin (fun m => recV (apply state m)) ms (min acc cV)
            ≤ min acc cV := foldMin_le _ _ _
          _ ≤ min acc c := min_le_min (le_refl acc) hcVc
      · intro h1 h2
        have := min_le_right acc c
        omega
      · intro h
        have := min_le_right acc c
        omega
    · rw [if_neg hcut]
      have hacb : alpha < min beta c := lt_of_not_le hcut
      obtain ⟨ihacc, ihkm⟩ := ih (min acc c) alpha (min beta c) hacb
      have haccr : (minLoop rec apply state ms (min acc c)
          alpha (min beta c)).1 ≤ acc := le_trans ihacc (min_le_left _ _)
      set r := (minLoop rec apply state ms (min acc c) alpha (min beta c)).1
        with hr
      refine ⟨haccr, ?_⟩
      rcases le_or_lt beta c with hbc | hcb
      · -- child failed high: its exhaustive value is at least `c`
        have hcVc : c ≤ cV := hkmc.2.2 hbc
        have hmin : min beta c = beta := min_eq_left hbc
        rw [hmin] at ihkm
        have hseed : min acc c = min (min acc cV) c := by
          rcases le_or_lt acc cV with h | h <;>
          · rcases le_or_lt acc c with h2 | h2 <;> omega
        have hvA : foldMin (fun m => recV (apply state m)) ms (min acc c)
            = min (foldMin (fun m => recV (apply state m)) ms (min acc cV)) c := by
          rw [hseed, foldMin_min]
        set v := foldMin (fun m => recV (apply state m)) ms (min acc cV) with hv
        refine ⟨?_, ?_, ?_⟩
        · intro h
          have h1 := ihkm.1 h
          rw [hvA] at h1
          rcases min_cases v c with ⟨h4, _⟩ | ⟨h4, _⟩ <;> omega
        · intro h1 h2
          have h3 := ihkm.2.1 h1 h2
          rw [hvA] at h3
          rcases min_cases v c with ⟨h4, _⟩ | ⟨h4, _⟩ <;> omega
        · intro h
          have h1 := ihkm.2.2 h
          rw [hvA] at h1
          have := min_le_left v c
          omega
      · -- child value inside the window (it cannot fail low here)
        have hac : alpha < c := by
          rcases min_cases beta c with ⟨h1, _⟩ | ⟨h1, _⟩ <;> omega
        have hcVc : cV = c := hkmc.2.1 hac hcb
        have hmin : min beta c = c := min_eq_right (le_of_lt hcb)
        rw [hmin] at ihkm
        have h6 : recV (apply state m) = c := by rw [← hcV]; exact hcVc
        rw [h6]
        have hrc : r ≤ c := le_trans ihacc (min_le_right acc c)
        refine ⟨?_, ?_, ?_⟩
        · exact ihkm.1
        · intro h1 h2
          rcases eq_or_lt_of_le hrc with hrc' | hrc'
          · have h3 := ihkm.2.2 (le_of_eq hrc'.symm)
            have h4 := foldMin_le (fun m => recV (apply state m)) ms (min acc c)
            have h5 := min_le_right acc c
            omega
          · exact ihkm.2.1 h1 hrc'
        · intro h
          omega

/-- Knuth–Moore relation between the pruned search `minimax` and the
exhaustive search `minimaxPlain`, for every window with `alpha < beta`. -/
theorem minimax_km (L : GameLogic GameState Move) :
    ∀ (d : Nat) (s : GameState) (mx : Bool) (alpha beta : Int),
      alpha < beta →
      kmRel alpha beta (minimax L d s alpha beta mx).1
        (minimaxPlain L d s mx) := by
  intro d
  induction d with
  | zero =>
    intro s mx alpha beta _
    simp only [minimax, minimaxPlain]
    exact kmRel_refl _ _ _
  | succ d ih =>
    intro s mx alpha beta hab
    simp only [minimax, minimaxPlain]
    by_cases ht : L.isTerminal s
    · rw [if_pos ht, if_pos ht]
      exact kmRel_refl _ _ _
    · rw [if_neg ht, if_neg ht]
      cases mx with
      | true =>
        rw [if_pos rfl, if_pos rfl]
        exact (maxLoop_km _ _ _ _ (fun t a b hab' => ih t false a b hab')
          (L.generateMoves s) (-32000) alpha beta hab).2
      | false =>
        rw [if_neg (by simp), if_neg (by simp)]
        exact (minLoop_km _ _ _ _ (fun t a b hab' => ih t true a b hab')
          (L.generateMoves s) (32000 : Int) alpha beta hab).2

/-- At the root the engine searches every child with the full window
`(-32000, 32000)`.  Pointwise, the pruned child score either equals the
exhaustive child score, or both scores are clamped past the same root
sentinel — in which case the root's strict comparison ignores both.
The first component covers minimizing children (a maximizing root), the
second maximizing children (a minimizing root). -/
theorem rootChild_eq (L : GameLogic GameState Move) :
    ∀ (d : Nat) (s : GameState) (mxc : Bool),
      (mxc = false →
        (minimax L d s (-32000) 32000 mxc).1 = minimaxPlain L d s mxc ∨
        ((minimax L d s (-32000) 32000 mxc).1 ≤ -32000 ∧
          minimaxPlain L d s mxc ≤ -32000)) ∧
      (mxc = true →
        (minimax L d s (-32000) 32000 mxc).1 = minimaxPlain L d s mxc ∨
        (32000 ≤ (minimax L d s (-32000) 32000 mxc).1 ∧
          32000 ≤ minimaxPlain L d s mxc)) := by
  intro d s mxc
  have hab : (-32000 : Int) < 32000 := by omega
  have hkm := minimax_km L d s mxc (-32000) 32000 hab
  cases d with
  | zero =>
    constructor <;> intro _ <;> exact Or.inl (by simp [minimax, minimaxPlain])
  | succ d =>
    by_cases ht : L.isTerminal s
    · constructor <;> intro _ <;>
        exact Or.inl (by simp [minimax, minimaxPlain, ht])
    · constructor
      · rintro rfl
        have hub : (minimax L (d + 1) s (-32000) 32000 false).1 ≤ 32000 := by
          simp only [minimax, ht, if_neg, Bool.false_eq_true, if_false]
          exact (minLoop_km _ _ _ _
            (fun t a b hab' => minimax_km L d t true a b hab')
            (L.generateMoves s) 32000 (-32000) 32000 hab).1
        have hvb : minimaxPlain L (d + 1) s false ≤ 32000 := by
          simp only [minimaxPlain, ht, if_neg, Bool.false_eq_true, if_false]
          exact foldMin_le _ _ _
        rcases le_or_lt (minimax L (d + 1) s (-32000) 32000 false).1
            (-32000) with h | h
        · exact Or.inr ⟨h, le_trans (hkm.1 h) h⟩
        · rcases lt_or_le (minimax L (d + 1) s (-32000) 32000 false).1
              32000 with h2 | h2
          · exact Or.inl (hkm.2.1 h h2).symm
          · have h3 := hkm.2.2 h2
            exact Or.inl (by omega)
      · rintro rfl
        have hlb : -32000 ≤ (minimax L (d + 1) s (-32000) 32000 true).1 := by
          simp only [minimax, ht, if_neg, if_true]
          exact le_trans (le_refl _) (maxLoop_km _ _ _ _
            (fun t a b hab' => minimax_km L d t false a b hab')
            (L.generateMoves s) (-32000) (-32000) 32000 hab).1
        have hvb : -32000 ≤ minimaxPlain L (d + 1) s true := by
          simp only [minimaxPlain, ht, if_neg, if_true]
          exact le_foldMax _ _ _
        rcases le_or_lt 32000 (minimax L (d + 1) s (-32000) 32000 true).1
            with h | h
        · exact Or.inr ⟨h, le_trans h (hkm.2.2 h)⟩
        · rcases lt_or_le (-32000 : Int)
              (minimax L (d + 1) s (-32000) 32000 true).1 with h2 | h2
          · exact Or.inl (hkm.2.1 h2 h).symm
          · have h3 := hkm.1 h2
            exact Or.inl (by omega)

/-- Root selection at a maximizing root is insensitive to replacing each
child score by an equal one, or by another score on the same side of the
`-32000` sentinel: scores at or below the sentinel never win the strict
comparison. -/
theorem rootLoop_congr_max (f : Move → Int × Nat) (g : Move → Int) :
    ∀ (ms : List Move) (bm : Move) (bs : Int), -32000 ≤ bs →
      (∀ m ∈ ms, (f m).1 = g m ∨ ((f m).1 ≤ -32000 ∧ g m ≤ -32000)) →
      ∀ n, (rootLoop f ms bm bs true n).1 = (rootLoopPlain g ms bm bs true).1 ∧
        (rootLoop f ms bm bs true n).2.1 = (rootLoopPlain g ms bm bs true).2
  | [], bm, bs, _, _, n => ⟨rfl, rfl⟩
  | m :: ms, bm, bs, hbs, h, n => by
    rcases h m (List.mem_cons_self m ms) with heq | ⟨hf, hg⟩
    · simp only [rootLoop, rootLoopPlain, heq]
      by_cases himp : g m > bs
      · rw [if_pos himp, if_pos himp]
        exact rootLoop_congr_max f g ms m (g m) (by omega)
          (fun x hx => h x (List.mem_cons_of_mem m hx)) _
      · rw [if_neg himp, if_neg himp]
        exact rootLoop_congr_max f g ms bm bs hbs
          (fun x hx => h x (List.mem_cons_of_mem m hx)) _
    · simp only [rootLoop, rootLoopPlain]
      rw [if_neg (by omega), if_neg (by omega)]
      exact rootLoop_congr_max f g ms bm bs hbs
        (fun x hx => h x (List.mem_cons_of_mem m hx)) _

/-- Dual of `rootLoop_congr_max` for a minimizing root: scores at or
above the `32000` sentinel never win the strict comparison. -/
theorem rootLoop_congr_min (f : Move → Int × Nat) (g : Move → Int) :
    ∀ (ms : List Move) (bm : Move) (bs : Int), bs ≤ 32000 →
      (∀ m ∈ ms, (f m).1 = g m ∨ (32000 ≤ (f m).1 ∧ 32000 ≤ g m)) →
      ∀ n, (rootLoop f ms bm bs false n).1 = (rootLoopPlain g ms bm bs false).1 ∧
        (rootLoop f ms bm bs false n).2.1 = (rootLoopPlain g ms bm bs false).2
  | [], bm, bs, _, _, n => ⟨rfl, rfl⟩
  | m :: ms, bm, bs, hbs, h, n => by
    rcases h m (List.mem_cons_self m ms) with heq | ⟨hf, hg⟩
    · simp only [rootLoop, rootLoopPlain, heq]
      by_cases himp : g m < bs
      · rw [if_pos himp, if_pos himp]
        exact rootLoop_congr_min f g ms m (g m) (by omega)
          (fun x hx => h x (List.mem_cons_of_mem m hx)) _
      · rw [if_neg himp, if_neg himp]
        exact rootLoop_congr_min f g ms bm bs hbs
          (fun x hx => h x (List.mem_cons_of_mem m hx)) _
    · simp only [rootLoop, rootLoopPlain]
      rw [if_neg (by omega), if_neg (by omega)]
      exact rootLoop_congr_min f g ms bm bs hbs
        (fun x hx => h x (List.mem_cons_of_mem m hx)) _

/-- C1.  For every game capability, root state, and configured depth
bound, the move returned by `findBestMove` and the score reported by
`getBestScore` equal the move and score computed by exhaustive
depth-bounded minimax without alpha-beta pruning on the same state:
pruning changes only the work performed, never the root outcome. -/
theorem findBestMove_eq_exhaustive (L : GameLogic GameState Move)
    [Inhabited Move] (maxDepth : Nat) (state : GameState)
    (es : EngineState) :
    (findBestMove L maxDepth state es).1 =
      (findBestMovePlain L maxDepth state es.bestScore).1 ∧
    getBestScore (findBestMove L maxDepth state es).2 =
      (findBestMovePlain L maxDepth state es.bestScore).2 := by
  simp only [findBestMove, findBestMovePlain]
  by_cases hlen : (L.generateMoves state).length = 0
  · rw [if_pos hlen, if_pos hlen]
    exact ⟨rfl, rfl⟩
  · rw [if_neg hlen, if_neg hlen]
    cases hb : L.isMaximizingPlayer state with
    | true =>
      simp only [Bool.not_true, if_pos rfl, getBestScore]
      exact rootLoop_congr_max _ _ (L.generateMoves state) default
        (-32000) (le_refl _)
        (fun m _ => (rootChild_eq L (maxDepth - 1)
          (L.applyMove state m) false).1 rfl) 0
    | false =>
      simp only [Bool.not_false, Bool.false_eq_true, if_false, getBestScore]
      exact rootLoop_congr_min _ _ (L.generateMoves state) default
        32000 (le_refl _)
        (fun m _ => (rootChild_eq L (maxDepth - 1)
          (L.applyMove state m) true).2 rfl) 0

/-! ## Root selection: strict improvement and tie-breaking -/

/-- The score of one root move: the engine's child call
`minimax(newState, MaxDepth - 1, -32000, 32000, !isMax)` made by
`findBestMove` after applying the move to a copy of the root state. -/
def rootScore (L : GameLogic GameState Move) (maxDepth : Nat)
    (state : GameState) (m : Move) : Int × Nat :=
  minimax L (maxDepth - 1) (L.applyMove state m)
    (-32000) 32000 (!(L.isMaximizingPlayer state))

/-- Characterization of the maximizing root loop: either no move strictly
improved the running best (everything is returned unchanged), or the
returned move is the move at the least index attaining the maximal
score — every earlier move scores strictly lower, every move scores no
higher. -/
theorem rootLoop_max_spec (f : Move → Int × Nat) :
    ∀ (ms : List Move) (bm : Move) (bs : Int) (n : Nat),
      ((rootLoop f ms bm bs true n).1 = bm ∧
        (rootLoop f ms bm bs true n).2.1 = bs ∧
        ∀ x ∈ ms, (f x).1 ≤ bs) ∨
      (∃ i, ∃ h : i < ms.length,
        (rootLoop f ms bm bs true n).1 = ms.get ⟨i, h⟩ ∧
        (rootLoop f ms bm bs true n).2.1 = (f (ms.get ⟨i, h⟩)).1 ∧
        bs < (f (ms.get ⟨i, h⟩)).1 ∧
        (∀ j (hj : j < i),
          (f (ms.get ⟨j, Nat.lt_trans hj h⟩)).1 < (f (ms.get ⟨i, h⟩)).1) ∧
        (∀ x ∈ ms, (f x).1 ≤ (f (ms.get ⟨i, h⟩)).1)) := by
  intro ms
  induction ms with
  | nil =>
    intro bm bs n
    exact Or.inl ⟨rfl, rfl, by simp⟩
  | cons m ms ih =>
    intro bm bs n
    simp only [rootLoop]
    by_cases hc : (f m).1 > bs
    · rw [if_pos hc]
      rcases ih m (f m).1 (n + (f m).2) with ⟨h1, h2, h3⟩ |
          ⟨i, hi, h1, h2, h3, h4, h5⟩
      · refine Or.inr ⟨0, by simp, h1, h2, hc, ?_, ?_⟩
        · intro j hj
          exact absurd hj (Nat.not_lt_zero j)
        · intro x hx
          rcases List.mem_cons.1 hx with rfl | hx'
          · exact le_refl _
          · exact h3 x hx'
      · refine Or.inr ⟨i + 1, Nat.succ_lt_succ hi, h1, h2, ?_, ?_, ?_⟩
        · exact lt_trans hc h3
        · intro j hj
          cases j with
          | zero => exact h3
          | succ j' => exact h4 j' (Nat.lt_of_succ_lt_succ hj)
        · intro x hx
          rcases List.mem_cons.1 hx with rfl | hx'
          · exact le_of_lt h3
          · exact h5 x hx'
    · rw [if_neg hc]
      rcases ih bm bs (n + (f m).2) with ⟨h1, h2, h3⟩ |
          ⟨i, hi, h1, h2, h3, h4, h5⟩
      · refine Or.inl ⟨h1, h2, ?_⟩
        intro x hx
        rcases List.mem_cons.1 hx with rfl | hx'
        · omega
        · exact h3 x hx'
      · refine Or.inr ⟨i + 1, Nat.succ_lt_succ hi, h1, h2, h3, ?_, ?_⟩
        · intro j hj
          cases j with
          | zero =>
            show (f m).1 < (f (ms.get ⟨i, hi⟩)).1
            omega
          | succ j' => exact h4 j' (Nat.lt_of_succ_lt_succ hj)
        · intro x hx
          rcases List.mem_cons.1 hx with rfl | hx'
          · show (f x).1 ≤ (f (ms.get ⟨i, hi⟩)).1
            omega
          · exact h5 x hx'

/-- Dual of `rootLoop_max_spec` for a minimizing root. -/
theorem rootLoop_min_spec (f : Move → Int × Nat) :
    ∀ (ms : List Move) (bm : Move) (bs : Int) (n : Nat),
      ((rootLoop f ms bm bs false n).1 = bm ∧
        (rootLoop f ms bm bs false n).2.1 = bs ∧
        ∀ x ∈ ms, bs ≤ (f x).1) ∨
      (∃ i, ∃ h : i < ms.length,
        (rootLoop f ms bm bs false n).1 = ms.get ⟨i, h⟩ ∧
        (rootLoop f ms bm bs false n).2.1 = (f (ms.get ⟨i, h⟩)).1 ∧
        (f (ms.get ⟨i, h⟩)).1 < bs ∧
        (∀ j (hj : j < i),
          (f (ms.get ⟨i, h⟩)).1 < (f (ms.get ⟨j, Nat.lt_trans hj h⟩)).1) ∧
        (∀ x ∈ ms, (f (ms.get ⟨i, h⟩)).1 ≤ (f x).1)) := by
  intro ms
  induction ms with
  | nil =>
    intro bm bs n
    exact Or.inl ⟨rfl, rfl, by simp⟩
  | cons m ms ih =>
    intro bm bs n
    simp only [rootLoop]
    by_cases hc : (f m).1 < bs
    · rw [if_pos hc]
      rcases ih m (f m).1 (n + (f m).2) with ⟨h1, h2, h3⟩ |
          ⟨i, hi, h1, h2, h3, h4, h5⟩
      · refine Or.inr ⟨0, by simp, h1, h2, hc, ?_, ?_⟩
        · intro j hj
          exact absurd hj (Nat.not_lt_zero j)
        · intro x hx
          rcases List.mem_cons.1 hx with rfl | hx'
          · exact le_refl _
          · exact h3 x hx'
      · refine Or.inr ⟨i + 1, Nat.succ_lt_succ hi, h1, h2, ?_, ?_, ?_⟩
        · exact lt_trans h3 hc
        · intro j hj
          cases j with
          | zero => exact h3
          | succ j' => exact h4 j' (Nat.lt_of_succ_lt_succ hj)
        · intro x hx
          rcases List.mem_cons.1 hx with rfl | hx'
          · exact le_of_lt h3
          · exact h5 x hx'
    · rw [if_neg hc]
      rcases ih bm bs (n + (f m).2) with ⟨h1, h2, h3⟩ |
          ⟨i, hi, h1, h2, h3, h4, h5⟩
      · refine Or.inl ⟨h1, h2, ?_⟩
        intro x hx
        rcases List.mem_cons.1 hx with rfl | hx'
        · omega
        · exact h3 x hx'
      · refine Or.inr ⟨i + 1, Nat.succ_lt_succ hi, h1, h2, h3, ?_, ?_⟩
        · intro j hj
          cases j with
          | zero =>
            show (f (ms.get ⟨i, hi⟩)).1 < (f m).1
            omega
          | succ j' => exact h4 j' (Nat.lt_of_succ_lt_succ hj)
        · intro x hx
          rcases List.mem_cons.1 hx with rfl | hx'
          · show (f (ms.get ⟨i, hi⟩)).1 ≤ (f x).1
            omega
          · exact h5 x hx'

/-- C4.  For every root state whose search scores improve on the initial
sentinel at least once, `findBestMove` returns the move at the least
index attaining the best score: every move generated earlier scores
strictly worse (`>` when maximizing, `<` when minimizing — the tracker
updates only on strict improvement), and no move scores better.  In
particular, of two root moves with equal best subtree score the earlier
one in generation order is returned. -/
theorem findBestMove_tie_break (L : GameLogic GameState Move)
    [Inhabited Move] (maxDepth : Nat) (state : GameState)
    (es : EngineState)
    (himp : ∃ m ∈ L.generateMoves state,
      if L.isMaximizingPlayer state
      then -32000 < (rootScore L maxDepth state m).1
      else (rootScore L maxDepth state m).1 < 32000) :
    ∃ i, ∃ h : i < (L.generateMoves state).length,
      (findBestMove L maxDepth state es).1
        = (L.generateMoves state).get ⟨i, h⟩ ∧
      getBestScore (findBestMove L maxDepth state es).2
        = (rootScore L maxDepth state ((L.generateMoves state).get ⟨i, h⟩)).1 ∧
      (∀ j (hj : j < i),
        if L.isMaximizingPlayer state
        then (rootScore L maxDepth state
            ((L.generateMoves state).get ⟨j, Nat.lt_trans hj h⟩)).1
          < (rootScore L maxDepth state ((L.generateMoves state).get ⟨i, h⟩)).1
        else (rootScore L maxDepth state ((L.generateMoves state).get ⟨i, h⟩)).1
          < (rootScore L maxDepth state
            ((L.generateMoves state).get ⟨j, Nat.lt_trans hj h⟩)).1) ∧
      (∀ x ∈ L.generateMoves state,
        if L.isMaximizingPlayer state
        then (rootScore L maxDepth state x).1
          ≤ (rootScore L maxDepth state ((L.generateMoves state).get ⟨i, h⟩)).1
        else (rootScore L maxDepth state ((L.generateMoves state).get ⟨i, h⟩)).1
          ≤ (rootScore L maxDepth state x).1) := by
  obtain ⟨m0, hm0, hm0s⟩ := himp
  have hne : (L.generateMoves state).length ≠ 0 := by
    intro h
    rw [List.length_eq_zero] at h
    rw [h] at hm0
    exact absurd hm0 (List.not_mem_nil m0)
  simp only [findBestMove, if_neg hne, getBestScore]
  cases hb : L.isMaximizingPlayer state with
  | true =>
    have hm0s' : -32000 < (minimax L (maxDepth - 1) (L.applyMove state m0)
        (-32000) 32000 false).1 := by
      simpa [rootScore, hb] using hm0s
    simp only [Bool.not_true, if_pos rfl]
    rcases rootLoop_max_spec
        (fun m => minimax L (maxDepth - 1) (L.applyMove state m)
          (-32000) 32000 false)
        (L.generateMoves state) default (-32000) 0 with
      ⟨_, _, h3⟩ | ⟨i, hi, h1, h2, _, h4, h5⟩
    · exfalso
      have := h3 m0 hm0
      omega
    · refine ⟨i, hi, h1, ?_, ?_, ?_⟩
      · simpa only [rootScore, hb, Bool.not_true] using h2
      · intro j hj
        simpa [rootScore, hb] using h4 j hj
      · intro x hx
        simpa [rootScore, hb] using h5 x hx
  | false =>
    have hm0s' : (minimax L (maxDepth - 1) (L.applyMove state m0)
        (-32000) 32000 true).1 < 32000 := by
      simpa [rootScore, hb] using hm0s
    simp only [Bool.not_false, Bool.false_eq_true, if_false]
    rcases rootLoop_min_spec
        (fun m => minimax L (maxDepth - 1) (L.applyMove state m)
          (-32000) 32000 true)
        (L.generateMoves state) default 32000 0 with
      ⟨_, _, h3⟩ | ⟨i, hi, h1, h2, _, h4, h5⟩
    · exfalso
      have := h3 m0 hm0
      omega
    · refine ⟨i, hi, h1, ?_, ?_, ?_⟩
      · simpa only [rootScore, hb, Bool.not_false] using h2
      · intro j hj
        simpa [rootScore, hb] using h4 j hj
      · intro x hx
        simpa [rootScore, hb] using h5 x hx

/-! ## The zero-move root path and the diagnostics fields -/

/-- C2 (amended).  When `generateMoves` returns no move at the root,
`findBestMove` returns a default-constructed `Move` and leaves both
engine fields untouched: the early return precedes the statements that
initialize `_bestScore` and reset `_nodesSearched`, so the best-score
value read via `getBestScore` is whatever it was before the call (the
previous call's result, or indeterminate on a fresh engine), not the
extreme sentinel. -/
theorem findBestMove_noMoves (L : GameLogic GameState Move)
    [Inhabited Move] (maxDepth : Nat) (state : GameState)
    (es : EngineState) (h : L.generateMoves state = []) :
    findBestMove L maxDepth state es = (default, es) := by
  simp [findBestMove, h]

/-- The evaluation table of the concrete capability `staleGame`. -/
def staleEval : Nat → Int
  | 1 => 7
  | _ => 0

/-- Concrete capability over `Nat` states and `Nat` moves (a move is
the state it leads to): state `0` has the single move `1`, every other
state — in particular state `9` — generates no move; no state is
terminal. -/
def staleGame : GameLogic Nat Nat where
  evaluate := staleEval
  generateMoves s :=
    match s with
    | 0 => [1]
    | _ => []
  applyMove _ m := m
  isTerminal _ := false
  isMaximizingPlayer _ := true

/-- C2 counterexample.  A first call on state `0` sets `_bestScore` to
`7`; a second call on the zero-move state `9` returns the default move
but `getBestScore` still reads `7` — not the initialized extreme
sentinel (`-32000` for this maximizing root, nor `32000`). -/
theorem findBestMove_noMoves_staleScore :
    staleGame.generateMoves 9 = [] ∧
    (findBestMove staleGame 1 9 (findBestMove staleGame 1 0 ⟨0, 0⟩).2).1
      = 0 ∧
    getBestScore
      (findBestMove staleGame 1 9 (findBestMove staleGame 1 0 ⟨0, 0⟩).2).2
      = 7 ∧
    (7 : Int) ≠ -32000 ∧ (7 : Int) ≠ 32000 := by
  decide

/-- Nodes reported by the root loop: the initial count plus the node
count of every root child search — the loop never breaks, and the
root enumeration itself contributes nothing. -/
theorem rootLoop_nodes (f : Move → Int × Nat) :
    ∀ (ms : List Move) (bm : Move) (bs : Int) (isMax : Bool) (n : Nat),
      (rootLoop f ms bm bs isMax n).2.2
        = n + (ms.map (fun m => (f m).2)).sum := by
  intro ms
  induction ms with
  | nil =>
    intro bm bs isMax n
    cases isMax <;> simp [rootLoop]
  | cons m ms ih =>
    intro bm bs isMax n
    cases isMax with
    | true =>
      simp only [rootLoop, List.map_cons, List.sum_cons]
      by_cases hc : (f m).1 > bs
      · rw [if_pos hc, ih]
        omega
      · rw [if_neg hc, ih]
        omega
    | false =>
      simp only [rootLoop, List.map_cons, List.sum_cons]
      by_cases hc : (f m).1 < bs
      · rw [if_pos hc, ih]
        omega
      · rw [if_neg hc, ih]
        omega

/-- C3 (amended).  For every root call in which at least one move is
generated, `getNodesSearched` afterwards equals exactly the total
number of recursive `minimax` invocations made during that call — the
sum over the root moves of the subtree node counts, each invocation
counting itself once on entry; the root enumeration is not counted, and
the value is independent of the engine fields before the call (never
cumulative).  A zero-move root call, by contrast, returns before the
reset and leaves the previous count in place. -/
theorem nodesSearched_eq_sum (L : GameLogic GameState Move)
    [Inhabited Move] (maxDepth : Nat) (state : GameState)
    (es : EngineState) (h : (L.generateMoves state).length ≠ 0) :
    getNodesSearched (findBestMove L maxDepth state es).2
      = ((L.generateMoves state).map
          (fun m => (rootScore L maxDepth state m).2)).sum := by
  simp only [findBestMove, if_neg h, getNodesSearched, rootScore]
  rw [rootLoop_nodes]
  simp

/-- C3 counterexample.  The second call (on zero-move state `9`) makes
no recursive search invocation, yet `getNodesSearched` reads `1`, the
count left over from the first call: the counter is not reset on the
zero-move path. -/
theorem nodesSearched_staleCount :
    staleGame.generateMoves 9 = [] ∧
    getNodesSearched
      (findBestMove staleGame 1 9 (findBestMove staleGame 1 0 ⟨0, 0⟩).2).2
      = 1 ∧
    (1 : Nat) ≠ 0 := by
  decide

/-! ## Base cases and the degenerate zero-move interior node -/

/-- C6.  Every `minimax` invocation with `depth = 0` or a terminal
state returns `evaluate(state)` directly and unmodified — no negation,
no move enumeration — regardless of the window and of whose turn it is
(`mx` arbitrary). -/
theorem minimax_base (L : GameLogic GameState Move) (depth : Nat)
    (s : GameState) (h : depth = 0 ∨ L.isTerminal s = true) :
    ∀ (alpha beta : Int) (mx : Bool),
      minimax L depth s alpha beta mx = (L.evaluate s, 1) := by
  intro alpha beta mx
  rcases h with rfl | ht
  · rfl
  · cases depth with
    | zero => rfl
    | succ d => simp [minimax, ht]

/-- C6 witness: depth 0 at state 5 of `staleGame`. -/
theorem minimax_base_witness :
    (0 = 0 ∨ staleGame.isTerminal 5 = true) ∧
    minimax staleGame 0 5 (-3) 4 true = (staleGame.evaluate 5, 1) :=
  ⟨Or.inl rfl, minimax_base staleGame 0 5 (Or.inl rfl) (-3) 4 true⟩

/-- C7.  A recursive invocation at a non-terminal state with positive
depth for which `generateMoves` returns no move never enters the move
loop: it returns the untouched sentinel extreme (`-32000` when
maximizing, `32000` when minimizing) and counts one node — and the
result does not depend on `evaluate`, which is never consulted at such
a node (replacing `evaluate` by any function leaves the invocation's
result unchanged). -/
theorem minimax_zeroMoves_sentinel (L : GameLogic GameState Move)
    (depth : Nat) (s : GameState) (hd : depth ≠ 0)
    (ht : L.isTerminal s = false) (hg : L.generateMoves s = []) :
    ∀ (alpha beta : Int) (mx : Bool),
      minimax L depth s alpha beta mx
        = ((if mx then (-32000 : Int) else 32000), 1) ∧
      ∀ f : GameState → Int,
        minimax { L with evaluate := f } depth s alpha beta mx
          = minimax L depth s alpha beta mx := by
  intro alpha beta mx
  obtain ⟨d, rfl⟩ : ∃ d, depth = d + 1 := ⟨depth - 1, by omega⟩
  constructor
  · cases mx <;> simp [minimax, ht, hg, maxLoop, minLoop]
  · intro f
    cases mx <;> simp [minimax, ht, hg, maxLoop, minLoop]

/-- C7 witness: state 9 of `staleGame` at depth 1 (non-terminal, no
moves), maximizing, with `evaluate` replaced by a constant `42`. -/
theorem minimax_zeroMoves_sentinel_witness :
    ((1 : Nat) ≠ 0 ∧ staleGame.isTerminal 9 = false ∧
      staleGame.generateMoves 9 = []) ∧
    minimax staleGame 1 9 (-3) 4 true = ((-32000 : Int), 1) ∧
    minimax { staleGame with evaluate := fun _ => 42 } 1 9 (-3) 4 true
      = minimax staleGame 1 9 (-3) 4 true := by
  refine ⟨⟨by decide, rfl, rfl⟩, ?_, ?_⟩
  · have := (minimax_zeroMoves_sentinel staleGame 1 9 (by decide) rfl rfl
      (-3) 4 true).1
    simpa using this
  · exact (minimax_zeroMoves_sentinel staleGame 1 9 (by decide) rfl rfl
      (-3) 4 true).2 (fun _ => 42)

/-- Concrete maximizing capability whose only root child evaluates to
exactly the `-32000` sentinel: the root's strict `>` never fires. -/
def clampMaxGame : GameLogic Nat Nat where
  evaluate _ := -32000
  generateMoves s :=
    match s with
    | 0 => [7]
    | _ => []
  applyMove _ m := m
  isTerminal _ := false
  isMaximizingPlayer _ := true

/-- Concrete minimizing capability whose only root child evaluates to
exactly the `32000` sentinel: the root's strict `<` never fires. -/
def clampMinGame : GameLogic Nat Nat where
  evaluate _ := 32000
  generateMoves s :=
    match s with
    | 0 => [7]
    | _ => []
  applyMove _ m := m
  isTerminal _ := false
  isMaximizingPlayer _ := false

/-- C10.  Root states with legal moves for which `findBestMove` still
returns the default-constructed `Move`: maximizing with every root
score `≤ -32000` (here the single legal move `7` scores exactly
`-32000`), and dually minimizing with every root score `≥ 32000`.  The
strict comparison never improves on the initial sentinel, so the
placeholder move `0 = default` is returned although move `7` is legal,
and the reported best score stays at the sentinel. -/
theorem findBestMove_default_despite_moves :
    (clampMaxGame.generateMoves 0 = [7] ∧
      (findBestMove clampMaxGame 1 0 ⟨0, 0⟩).1 = 0 ∧
      (0 : Nat) = default ∧
      (rootScore clampMaxGame 1 0 7).1 ≤ -32000 ∧
      getBestScore (findBestMove clampMaxGame 1 0 ⟨0, 0⟩).2 = -32000) ∧
    (clampMinGame.generateMoves 0 = [7] ∧
      (findBestMove clampMinGame 1 0 ⟨0, 0⟩).1 = 0 ∧
      32000 ≤ (rootScore clampMinGame 1 0 7).1 ∧
      getBestScore (findBestMove clampMinGame 1 0 ⟨0, 0⟩).2 = 32000) := by
  decide

/-- C2 witness: state 9 of `staleGame` generates no move; the call
returns the default move `0` and the engine fields `⟨5, 2⟩` exactly as
they were. -/
theorem findBestMove_noMoves_witness :
    staleGame.generateMoves 9 = [] ∧
    findBestMove staleGame 3 9 ⟨5, 2⟩ = (0, ⟨5, 2⟩) :=
  ⟨rfl, findBestMove_noMoves staleGame 3 9 ⟨5, 2⟩ rfl⟩

/-- C3 witness: the one-move root call on `staleGame` reports exactly
the node count of its single child search, independent of the stale
`⟨9, 9⟩` fields. -/
theorem nodesSearched_eq_sum_witness :
    (staleGame.generateMoves 0).length ≠ 0 ∧
    getNodesSearched (findBestMove staleGame 1 0 ⟨9, 9⟩).2
      = ((staleGame.generateMoves 0).map
          (fun m => (rootScore staleGame 1 0 m).2)).sum :=
  ⟨by decide, nodesSearched_eq_sum staleGame 1 0 ⟨9, 9⟩ (by decide)⟩

/-- Evaluation table for `tieGame`: root moves 1 and 2 tie at score 5,
move 3 scores lower. -/
def tieEval : Nat → Int
  | 1 => 5
  | 2 => 5
  | 3 => 2
  | _ => 0

/-- Concrete maximizing capability with a root tie between the first
two of three moves. -/
def tieGame : GameLogic Nat Nat where
  evaluate := tieEval
  generateMoves s :=
    match s with
    | 0 => [1, 2, 3]
    | _ => []
  applyMove _ m := m
  isTerminal _ := false
  isMaximizingPlayer _ := true

/-- C4 witness: on `tieGame` (root scores 5, 5, 2) the selected index
satisfies the characterization — it is the earliest of the tied best
moves. -/
theorem findBestMove_tie_break_witness :
    ∃ i, ∃ h : i < (tieGame.generateMoves 0).length,
      (findBestMove tieGame 1 0 ⟨0, 0⟩).1
        = (tieGame.generateMoves 0).get ⟨i, h⟩ ∧
      getBestScore (findBestMove tieGame 1 0 ⟨0, 0⟩).2
        = (rootScore tieGame 1 0 ((tieGame.generateMoves 0).get ⟨i, h⟩)).1 ∧
      (∀ j (hj : j < i),
        if tieGame.isMaximizingPlayer 0
        then (rootScore tieGame 1 0
            ((tieGame.generateMoves 0).get ⟨j, Nat.lt_trans hj h⟩)).1
          < (rootScore tieGame 1 0 ((tieGame.generateMoves 0).get ⟨i, h⟩)).1
        else (rootScore tieGame 1 0 ((tieGame.generateMoves 0).get ⟨i, h⟩)).1
          < (rootScore tieGame 1 0
            ((tieGame.generateMoves 0).get ⟨j, Nat.lt_trans hj h⟩)).1) ∧
      (∀ x ∈ tieGame.generateMoves 0,
        if tieGame.isMaximizingPlayer 0
        then (rootScore tieGame 1 0 x).1
          ≤ (rootScore tieGame 1 0 ((tieGame.generateMoves 0).get ⟨i, h⟩)).1
        else (rootScore tieGame 1 0 ((tieGame.generateMoves 0).get ⟨i, h⟩)).1
          ≤ (rootScore tieGame 1 0 x).1) :=
  findBestMove_tie_break tieGame 1 0 ⟨0, 0⟩ (by decide)

/-! ## Cutoffs stop the node loops -/

/-- C5.  At any point of a node's move loop (arbitrary running value,
window and remaining siblings), if examining the next move closes the
window — `β ≤ α` after raising `α` to the child's score at a maximizing
node, or `β ≤ α` after lowering `β` at a minimizing node — the loop
stops at that move: the result records only that child's nodes and only
that move as applied, so none of the remaining sibling moves is copied,
applied, or searched. -/
theorem cutoff_prunes_rest :
    (∀ (rec : GameState → Int → Int → Int × Nat)
        (applyMove : GameState → Move → GameState) (s : GameState)
        (m : Move) (rest : List Move) (acc alpha beta : Int),
      beta ≤ max alpha (rec (applyMove s m) alpha beta).1 →
      maxLoop rec applyMove s (m :: rest) acc alpha beta
        = (max acc (rec (applyMove s m) alpha beta).1,
           (rec (applyMove s m) alpha beta).2, [m])) ∧
    (∀ (rec : GameState → Int → Int → Int × Nat)
        (applyMove : GameState → Move → GameState) (s : GameState)
        (m : Move) (rest : List Move) (acc alpha beta : Int),
      min beta (rec (applyMove s m) alpha beta).1 ≤ alpha →
      minLoop rec applyMove s (m :: rest) acc alpha beta
        = (min acc (rec (applyMove s m) alpha beta).1,
           (rec (applyMove s m) alpha beta).2, [m])) := by
  constructor
  · intro rec applyMove s m rest acc alpha beta h
    simp only [maxLoop]
    rw [if_pos h]
  · intro rec applyMove s m rest acc alpha beta h
    simp only [minLoop]
    rw [if_pos h]

/-- C5 witness: concrete loops over `Int` states and moves.  The first
child scores 40 against the window `(7, 20)` at a maximizing node
(beta cutoff), respectively `-50` at a minimizing node (alpha cutoff);
the siblings `[1, 2]` are not applied and contribute no nodes. -/
theorem cutoff_prunes_rest_witness :
    maxLoop (fun t _ _ => (t, 5)) (fun s m => s + m) (0 : Int)
        [(40 : Int), 1, 2] 3 7 20
      = (max 3 ((fun (t : Int) (_ _ : Int) => (t, 5)) ((0 : Int) + 40) 7 20).1,
         ((fun (t : Int) (_ _ : Int) => (t, 5)) ((0 : Int) + 40) 7 20).2,
         [40]) ∧
    minLoop (fun t _ _ => (t, 5)) (fun s m => s + m) (0 : Int)
        [(-50 : Int), 1, 2] 3 7 20
      = (min 3 ((fun (t : Int) (_ _ : Int) => (t, 5)) ((0 : Int) + -50) 7 20).1,
         ((fun (t : Int) (_ _ : Int) => (t, 5)) ((0 : Int) + -50) 7 20).2,
         [-50]) :=
  ⟨(@cutoff_prunes_rest Int Int).1 (fun t _ _ => (t, 5)) (fun s m => s + m)
      0 40 [1, 2] 3 7 20 (by decide),
   (@cutoff_prunes_rest Int Int).2 (fun t _ _ => (t, 5)) (fun s m => s + m)
      0 (-50) [1, 2] 3 7 20 (by decide)⟩

/-! ## Termination and stack depth: a fuel model with the source's
`int` depth

`minimaxFuelZ` is `Minimax::minimax` with the `int` depth of the source
and an explicit stack budget: `fuel` is the number of nested
invocations allowed, and `none` means the computation does not complete
within that budget.  Running out of budget at any child aborts the
whole call, so `minimaxFuelZ fuel … = some …` states precisely that the
recursion nests at most `fuel` invocations deep. -/

/-- Maximizing move loop of the fuel model. -/
def maxLoopF (rec : GameState → Int → Int → Option (Int × Nat))
    (applyMove : GameState → Move → GameState) (state : GameState) :
    List Move → Int → Int → Int → Option (Int × Nat)
  | [], maxEval, _alpha, _beta => some (maxEval, 0)
  | m :: ms, maxEval, alpha, beta =>
    match rec (applyMove state m) alpha beta with
    | none => none
    | some r =>
      let maxEval1 := max maxEval r.1
      let alpha1 := max alpha r.1
      if beta ≤ alpha1 then some (maxEval1, r.2)
      else
        match maxLoopF rec applyMove state ms maxEval1 alpha1 beta with
        | none => none
        | some rest => some (rest.1, r.2 + rest.2)

/-- Minimizing move loop of the fuel model. -/
def minLoopF (rec : GameState → Int → Int → Option (Int × Nat))
    (applyMove : GameState → Move → GameState) (state : GameState) :
    List Move → Int → Int → Int → Option (Int × Nat)
  | [], minEval, _alpha, _beta => some (minEval, 0)
  | m :: ms, minEval, alpha, beta =>
    match rec (applyMove state m) alpha beta with
    | none => none
    | some r =>
      let minEval1 := min minEval r.1
      let beta1 := min beta r.1
      if beta1 ≤ alpha then some (minEval1, r.2)
      else
        match minLoopF rec applyMove state ms minEval1 alpha beta1 with
        | none => none
        | some rest => some (rest.1, r.2 + rest.2)

/-- `Minimax::minimax` with the source's `int` depth parameter, under a
stack budget.  The base case tests `depth == 0` exactly as the C++
does, so a negative depth (as produced by a root call configured with
`MaxDepth = 0`) recurses past zero and never reaches the base case by
depth alone. -/
def minimaxFuelZ (L : GameLogic GameState Move) :
    Nat → Int → GameState → Int → Int → Bool → Option (Int × Nat)
  | 0, _, _, _, _, _ => none
  | fuel + 1, depth, state, alpha, beta, mx =>
    if depth = 0 ∨ L.isTerminal state then some (L.evaluate state, 1)
    else
      let moves := L.generateMoves state
      if mx then
        match maxLoopF
            (fun t a b => minimaxFuelZ L fuel (depth - 1) t a b false)
            L.applyMove state moves (-32000) alpha beta with
        | none => none
        | some r => some (r.1, 1 + r.2)
      else
        match minLoopF
            (fun t a b => minimaxFuelZ L fuel (depth - 1) t a b true)
            L.applyMove state moves 32000 alpha beta with
        | none => none
        | some r => some (r.1, 1 + r.2)

/-- Root loop of the fuel model. -/
def rootLoopF (score : Move → Option (Int × Nat)) :
    List Move → Move → Int → Bool → Nat → Option (Move × Int × Nat)
  | [], bestMove, bestScore, _isMax, nodes => some (bestMove, bestScore, nodes)
  | m :: ms, bestMove, bestScore, true, nodes =>
    match score m with
    | none => none
    | some r =>
      if r.1 > bestScore then rootLoopF score ms m r.1 true (nodes + r.2)
      else rootLoopF score ms bestMove bestScore true (nodes + r.2)
  | m :: ms, bestMove, bestScore, false, nodes =>
    match score m with
    | none => none
    | some r =>
      if r.1 < bestScore then rootLoopF score ms m r.1 false (nodes + r.2)
      else rootLoopF score ms bestMove bestScore false (nodes + r.2)

/-- `Minimax::findBestMove` with the source's `int` `MaxDepth` template
parameter: the root invokes the recursive search at depth
`MaxDepth - 1` under the given stack budget. -/
def findBestMoveFuelZ (L : GameLogic GameState Move) [Inhabited Move]
    (fuel : Nat) (maxDepth : Int) (state : GameState) (es : EngineState) :
    Option (Move × EngineState) :=
  let moves := L.generateMoves state
  if moves.length = 0 then some (default, es)
  else
    let isMax := L.isMaximizingPlayer state
    match rootLoopF
        (fun m => minimaxFuelZ L fuel (maxDepth - 1) (L.applyMove state m)
          (-32000) 32000 (!isMax))
        moves default (if isMax then -32000 else 32000) isMax 0 with
    | none => none
    | some r => some (r.1, ⟨r.2.1, r.2.2⟩)

theorem maxLoopF_agree (rec : GameState → Int → Int → Int × Nat)
    (recF : GameState → Int → Int → Option (Int × Nat))
    (h : ∀ t a b, recF t a b = some (rec t a b))
    (applyMove : GameState → Move → GameState) (state : GameState) :
    ∀ (ms : List Move) (acc alpha beta : Int),
      maxLoopF recF applyMove state ms acc alpha beta
        = some ((maxLoop rec applyMove state ms acc alpha beta).1,
            (maxLoop rec applyMove state ms acc alpha beta).2.1) := by
  intro ms
  induction ms with
  | nil =>
    intro acc alpha beta
    simp [maxLoopF, maxLoop]
  | cons m ms ih =>
    intro acc alpha beta
    simp only [maxLoopF, maxLoop, h]
    by_cases hcut : beta ≤ max alpha (rec (applyMove state m) alpha beta).1
    · rw [if_pos hcut, if_pos hcut]
    · rw [if_neg hcut, if_neg hcut, ih]

theorem minLoopF_agree (rec : GameState → Int → Int → Int × Nat)
    (recF : GameState → Int → Int → Option (Int × Nat))
    (h : ∀ t a b, recF t a b = some (rec t a b))
    (applyMove : GameState → Move → GameState) (state : GameState) :
    ∀ (ms : List Move) (acc alpha beta : Int),
      minLoopF recF applyMove state ms acc alpha beta
        = some ((minLoop rec applyMove state ms acc alpha beta).1,
            (minLoop rec applyMove state ms acc alpha beta).2.1) := by
  intro ms
  induction ms with
  | nil =>
    intro acc alpha beta
    simp [minLoopF, minLoop]
  | cons m ms ih =>
    intro acc alpha beta
    simp only [minLoopF, minLoop, h]
    by_cases hcut : min beta (rec (applyMove state m) alpha beta).1 ≤ alpha
    · rw [if_pos hcut, if_pos hcut]
    · rw [if_neg hcut, if_neg hcut, ih]

/-- A stack budget exceeding the (non-negative) depth suffices: the
fuel model completes and agrees with the total `Nat`-depth model.
Since the budget decreases by exactly one per nested invocation, this
is the statement that the recursion started at depth `d` never nests
more than `d + 1` invocations deep. -/
theorem minimaxFuelZ_agree (L : GameLogic GameState Move) :
    ∀ (fuel : Nat) (depth : Int) (s : GameState) (alpha beta : Int)
      (mx : Bool), 0 ≤ depth → depth < fuel →
      minimaxFuelZ L fuel depth s alpha beta mx
        = some (minimax L depth.toNat s alpha beta mx) := by
  intro fuel
  induction fuel with
  | zero =>
    intro depth s alpha beta mx h0 hf
    exfalso
    omega
  | succ fuel ih =>
    intro depth s alpha beta mx h0 hf
    by_cases hd : depth = 0
    · subst hd
      by_cases ht : L.isTerminal s
      · simp [minimaxFuelZ, minimax, ht]
      · simp [minimaxFuelZ, minimax, ht]
    · have hpos : 0 < depth := by omega
      have htn : depth.toNat = (depth - 1).toNat + 1 := by omega
      by_cases ht : L.isTerminal s
      · rw [htn]
        simp [minimaxFuelZ, minimax, ht, hd]
      · have hbase : ¬(depth = 0 ∨ L.isTerminal s = true) := by
          simp [hd, ht]
        have hrec : ∀ (t : GameState) (a b : Int) (mx' : Bool),
            minimaxFuelZ L fuel (depth - 1) t a b mx'
              = some (minimax L (depth - 1).toNat t a b mx') :=
          fun t a b mx' => ih (depth - 1) t a b mx' (by omega) (by omega)
        rw [htn]
        cases mx with
        | true =>
          simp only [minimaxFuelZ, minimax, if_neg hbase, if_neg ht]
          rw [maxLoopF_agree
            (fun t a b => minimax L (depth - 1).toNat t a b false)
            (fun t a b => minimaxFuelZ L fuel (depth - 1) t a b false)
            (fun t a b => hrec t a b false) L.applyMove s]
          simp
        | false =>
          simp only [minimaxFuelZ, minimax, if_neg hbase, if_neg ht]
          rw [minLoopF_agree
            (fun t a b => minimax L (depth - 1).toNat t a b true)
            (fun t a b => minimaxFuelZ L fuel (depth - 1) t a b true)
            (fun t a b => hrec t a b true) L.applyMove s]
          simp

theorem rootLoopF_agree (score : Move → Int × Nat)
    (scoreF : Move → Option (Int × Nat))
    (h : ∀ m, scoreF m = some (score m)) :
    ∀ (ms : List Move) (bm : Move) (bs : Int) (isMax : Bool) (n : Nat),
      rootLoopF scoreF ms bm bs isMax n
        = some (rootLoop score ms bm bs isMax n) := by
  intro ms
  induction ms with
  | nil =>
    intro bm bs isMax n
    cases isMax <;> simp [rootLoopF, rootLoop]
  | cons m ms ih =>
    intro bm bs isMax n
    cases isMax with
    | true =>
      simp only [rootLoopF, rootLoop, h]
      by_cases hc : (score m).1 > bs
      · rw [if_pos hc, if_pos hc, ih]
      · rw [if_neg hc, if_neg hc, ih]
    | false =>
      simp only [rootLoopF, rootLoop, h]
      by_cases hc : (score m).1 < bs
      · rw [if_pos hc, if_pos hc, ih]
      · rw [if_neg hc, if_neg hc, ih]

/-- C8 (amended: `MaxDepth ≥ 1`).  For every capability, root state and
configuration with `MaxDepth ≥ 1`, `findBestMove` terminates within a
call-stack budget of `MaxDepth` nested search invocations and computes
the value of the total model: the root invokes the search at depth
`MaxDepth − 1`, each recursion decreases the depth (and the budget) by
exactly one, and depth 0 is a base case, so the search never nests
deeper than `MaxDepth`. -/
theorem findBestMove_terminates_within_maxDepth
    (L : GameLogic GameState Move) [Inhabited Move]
    (maxDepth fuel : Nat) (state : GameState) (es : EngineState)
    (h1 : 1 ≤ maxDepth) (h2 : maxDepth ≤ fuel) :
    findBestMoveFuelZ L fuel (maxDepth : Int) state es
      = some (findBestMove L maxDepth state es) := by
  simp only [findBestMoveFuelZ, findBestMove]
  by_cases hlen : (L.generateMoves state).length = 0
  · rw [if_pos hlen, if_pos hlen]
  · rw [if_neg hlen, if_neg hlen]
    have htn : ((maxDepth : Int) - 1).toNat = maxDepth - 1 := by omega
    have hsc : ∀ m : Move,
        minimaxFuelZ L fuel ((maxDepth : Int) - 1) (L.applyMove state m)
          (-32000) 32000 (!(L.isMaximizingPlayer state))
        = some (minimax L (maxDepth - 1) (L.applyMove state m)
          (-32000) 32000 (!(L.isMaximizingPlayer state))) := by
      intro m
      rw [minimaxFuelZ_agree L fuel ((maxDepth : Int) - 1) _ _ _ _
        (by omega) (by omega), htn]
    rw [rootLoopF_agree
      (fun m => minimax L (maxDepth - 1) (L.applyMove state m)
        (-32000) 32000 (!(L.isMaximizingPlayer state)))
      (fun m => minimaxFuelZ L fuel ((maxDepth : Int) - 1)
        (L.applyMove state m) (-32000) 32000
        (!(L.isMaximizingPlayer state)))
      hsc]

/-- C8 witness: `staleGame` with `MaxDepth = 1` finishes within a
budget of one nested invocation. -/
theorem findBestMove_terminates_witness :
    findBestMoveFuelZ staleGame 1 (1 : Int) 0 ⟨0, 0⟩
      = some (findBestMove staleGame 1 0 ⟨0, 0⟩) :=
  findBestMove_terminates_within_maxDepth staleGame 1 1 0 ⟨0, 0⟩
    (by decide) (by decide)

/-- Capability with a single non-terminal state and one self-move: the
simplest game on which a search launched below depth 0 never bottoms
out. -/
def loopLogic : GameLogic Unit Unit where
  evaluate _ := 0
  generateMoves _ := [()]
  applyMove _ _ := ()
  isTerminal _ := false
  isMaximizingPlayer _ := true

/-- A search of `loopLogic` started at negative depth exhausts every
stack budget: the `depth == 0` base case is never reached again. -/
theorem minimaxFuelZ_negative_depth_diverges :
    ∀ (fuel : Nat) (depth : Int) (alpha beta : Int) (mx : Bool),
      depth < 0 →
      minimaxFuelZ loopLogic fuel depth () alpha beta mx = none := by
  intro fuel
  induction fuel with
  | zero =>
    intro depth alpha beta mx _
    rfl
  | succ fuel ih =>
    intro depth alpha beta mx hneg
    have hbase : ¬(depth = 0 ∨ loopLogic.isTerminal () = true) := by
      simp [loopLogic]
      omega
    cases mx with
    | true =>
      have hih := ih (depth - 1) alpha beta false (by omega)
      simp only [minimaxFuelZ, if_neg hbase]
      simp only [loopLogic] at hih ⊢
      simp [maxLoopF, hih]
    | false =>
      have hih := ih (depth - 1) alpha beta true (by omega)
      simp only [minimaxFuelZ, if_neg hbase]
      simp only [loopLogic] at hih ⊢
      simp [minLoopF, hih]

/-- The statement that no stack budget lets the source's root call
configured with `MaxDepth = 0` finish on `loopLogic`: with the `int`
depth of the C++, the root passes depth `-1` to the recursive search,
which then decreases the depth forever. -/
def findBestMoveDivergesAtZero : Prop :=
  ∀ fuel : Nat,
    findBestMoveFuelZ loopLogic fuel 0 () ⟨0, 0⟩ = none

/-- C8 counterexample: with `MaxDepth = 0` (a configuration the claim's
universal quantification over depth bounds admits) `findBestMove` on
`loopLogic` does not terminate — it fails for every stack budget — so
"a findBestMove call terminates" does not hold as stated; it requires
`MaxDepth ≥ 1`. -/
theorem findBestMove_diverges_at_maxDepth_zero :
    findBestMoveDivergesAtZero := by
  intro fuel
  have h1 : minimaxFuelZ loopLogic fuel (-1) () (-32000) 32000
      false = none :=
    minimaxFuelZ_negative_depth_diverges fuel (-1) (-32000) 32000 false
      (by omega)
  simp only [findBestMoveFuelZ]
  simp only [loopLogic] at h1 ⊢
  simp [rootLoopF, h1]

/-! ## Frame property: the caller's state is never mutated

To make the C++ copy/mutation discipline observable, the engine is
re-run over an explicit store of `GameState` cells addressed by index.
`GameState newState = state` becomes pushing a copy of the current cell
onto the end of the store, `applyMove(newState, …)` becomes an in-place
update of that fresh cell, and the local's end of life at the end of
the loop iteration becomes truncating the store back to its previous
length.  The caller's state is a cell of the store; the theorem shows
the store comes back identical, so the cell is never written. -/

theorem getD_concat {α : Type} (l : List α) (x d : α) :
    (l ++ [x]).getD l.length d = x := by
  induction l with
  | nil => rfl
  | cons a l _ => simp [List.getD]

theorem set_concat {α : Type} (l : List α) (x y : α) :
    (l ++ [x]).set l.length y = l ++ [y] := by
  induction l with
  | nil => rfl
  | cons a l ih => simp [List.set, ih]

theorem take_concat {α : Type} (l : List α) (x : α) :
    (l ++ [x]).take l.length = l :=
  List.take_left l [x]

/-- The in-place `applyMove(state, move)` of the C++ on cell `i` of the
store. -/
def applyMoveAt (L : GameLogic GameState Move) [Inhabited GameState]
    (store : List GameState) (i : Nat) (m : Move) : List GameState :=
  store.set i (L.applyMove (store.getD i default) m)

/-- Maximizing move loop over the store: copy the node's cell to a
fresh cell, apply the move there in place, search the fresh cell,
discard the frame, continue. -/
def maxLoopRef
    (rec : List GameState → Nat → Int → Int → Int × List GameState)
    (L : GameLogic GameState Move) [Inhabited GameState] (cell : Nat) :
    List GameState → List Move → Int → Int → Int → Int × List GameState
  | store, [], maxEval, _alpha, _beta => (maxEval, store)
  | store, m :: ms, maxEval, alpha, beta =>
    let store1 := store ++ [store.getD cell default]
    let store2 := applyMoveAt L store1 store.length m
    let r := rec store2 store.length alpha beta
    let store3 := r.2.take store.length
    let maxEval1 := max maxEval r.1
    let alpha1 := max alpha r.1
    if beta ≤ alpha1 then (maxEval1, store3)
    else maxLoopRef rec L cell store3 ms maxEval1 alpha1 beta

/-- Minimizing move loop over the store. -/
def minLoopRef
    (rec : List GameState → Nat → Int → Int → Int × List GameState)
    (L : GameLogic GameState Move) [Inhabited GameState] (cell : Nat) :
    List GameState → List Move → Int → Int → Int → Int × List GameState
  | store, [], minEval, _alpha, _beta => (minEval, store)
  | store, m :: ms, minEval, alpha, beta =>
    let store1 := store ++ [store.getD cell default]
    let store2 := applyMoveAt L store1 store.length m
    let r := rec store2 store.length alpha beta
    let store3 := r.2.take store.length
    let minEval1 := min minEval r.1
    let beta1 := min beta r.1
    if beta1 ≤ alpha then (minEval1, store3)
    else minLoopRef rec L cell store3 ms minEval1 alpha beta1

/-- `Minimax::minimax` over the store: the node's state lives in cell
`cell`; every child position is built in a freshly pushed cell. -/
def minimaxRef (L : GameLogic GameState Move) [Inhabited GameState] :
    Nat → List GameState → Nat → Int → Int → Bool → Int × List GameState
  | 0, store, cell, _alpha, _beta, _mx =>
    (L.evaluate (store.getD cell default), store)
  | depth + 1, store, cell, alpha, beta, mx =>
    if L.isTerminal (store.getD cell default) then
      (L.evaluate (store.getD cell default), store)
    else
      let moves := L.generateMoves (store.getD cell default)
      if mx then
        maxLoopRef (fun st c a b => minimaxRef L depth st c a b false)
          L cell store moves (-32000) alpha beta
      else
        minLoopRef (fun st c a b => minimaxRef L depth st c a b true)
          L cell store moves 32000 alpha beta

/-- Root loop of `Minimax::findBestMove` over the store: each root move
is simulated on a freshly pushed private copy of the caller's cell. -/
def rootLoopRef (L : GameLogic GameState Move) [Inhabited GameState]
    (d : Nat) (cell : Nat) :
    List GameState → List Move → Move → Int → Bool →
      Move × Int × List GameState
  | store, [], bestMove, bestScore, _isMax => (bestMove, bestScore, store)
  | store, m :: ms, bestMove, bestScore, true =>
    let store1 := store ++ [store.getD cell default]
    let store2 := applyMoveAt L store1 store.length m
    let r := minimaxRef L d store2 store.length (-32000) 32000 false
    let store3 := r.2.take store.length
    if r.1 > bestScore then rootLoopRef L d cell store3 ms m r.1 true
    else rootLoopRef L d cell store3 ms bestMove bestScore true
  | store, m :: ms, bestMove, bestScore, false =>
    let store1 := store ++ [store.getD cell default]
    let store2 := applyMoveAt L store1 store.length m
    let r := minimaxRef L d store2 store.length (-32000) 32000 true
    let store3 := r.2.take store.length
    if r.1 < bestScore then rootLoopRef L d cell store3 ms m r.1 false
    else rootLoopRef L d cell store3 ms bestMove bestScore false

/-- `Minimax::findBestMove` over the store: the caller's state is the
cell `cell`; the result carries the final store. -/
def findBestMoveRef (L : GameLogic GameState Move) [Inhabited GameState]
    [Inhabited Move] (maxDepth : Nat) (store : List GameState)
    (cell : Nat) (es : EngineState) : Move × Int × List GameState :=
  let moves := L.generateMoves (store.getD cell default)
  if moves.length = 0 then (default, es.bestScore, store)
  else
    let isMax := L.isMaximizingPlayer (store.getD cell default)
    rootLoopRef L (maxDepth - 1) cell store moves default
      (if isMax then -32000 else 32000) isMax

theorem maxLoopRef_agree
    (rec : List GameState → Nat → Int → Int → Int × List GameState)
    (recPure : GameState → Int → Int → Int × Nat)
    (L : GameLogic GameState Move) [Inhabited GameState]
    (h : ∀ st c a b, rec st c a b = ((recPure (st.getD c default) a b).1, st))
    (cell : Nat) :
    ∀ (store : List GameState) (ms : List Move) (acc alpha beta : Int),
      maxLoopRef rec L cell store ms acc alpha beta
        = ((maxLoop recPure L.applyMove (store.getD cell default)
            ms acc alpha beta).1, store) := by
  intro store ms
  induction ms with
  | nil =>
    intro acc alpha beta
    simp [maxLoopRef, maxLoop]
  | cons m ms ih =>
    intro acc alpha beta
    simp only [maxLoopRef, maxLoop, applyMoveAt, h, getD_concat, set_concat,
      take_concat]
    by_cases hcut : beta ≤ max alpha
        ((recPure (L.applyMove (store.getD cell default) m) alpha beta)).1
    · rw [if_pos hcut, if_pos hcut]
    · rw [if_neg hcut, if_neg hcut, ih]

theorem minLoopRef_agree
    (rec : List GameState → Nat → Int → Int → Int × List GameState)
    (recPure : GameState → Int → Int → Int × Nat)
    (L : GameLogic GameState Move) [Inhabited GameState]
    (h : ∀ st c a b, rec st c a b = ((recPure (st.getD c default) a b).1, st))
    (cell : Nat) :
    ∀ (store : List GameState) (ms : List Move) (acc alpha beta : Int),
      minLoopRef rec L cell store ms acc alpha beta
        = ((minLoop recPure L.applyMove (store.getD cell default)
            ms acc alpha beta).1, store) := by
  intro store ms
  induction ms with
  | nil =>
    intro acc alpha beta
    simp [minLoopRef, minLoop]
  | cons m ms ih =>
    intro acc alpha beta
    simp only [minLoopRef, minLoop, applyMoveAt, h, getD_concat, set_concat,
      take_concat]
    by_cases hcut : min beta
        ((recPure (L.applyMove (store.getD cell default) m) alpha beta)).1
        ≤ alpha
    · rw [if_pos hcut, if_pos hcut]
    · rw [if_neg hcut, if_neg hcut, ih]

/-- The store-passing search returns the pure search's score and the
store exactly as it received it: all its writes hit only cells it
pushed itself, all of which it pops again. -/
theorem minimaxRef_agree (L : GameLogic GameState Move)
    [Inhabited GameState] :
    ∀ (d : Nat) (store : List GameState) (cell : Nat)
      (alpha beta : Int) (mx : Bool),
      minimaxRef L d store cell alpha beta mx
        = ((minimax L d (store.getD cell default) alpha beta mx).1,
           store) := by
  intro d
  induction d with
  | zero =>
    intro store cell alpha beta mx
    simp [minimaxRef, minimax]
  | succ d ih =>
    intro store cell alpha beta mx
    by_cases ht : L.isTerminal (store.getD cell default)
    · simp only [minimaxRef, minimax, if_pos ht]
    · cases mx with
      | true =>
        simp only [minimaxRef, minimax, if_neg ht]
        rw [maxLoopRef_agree
          (fun st c a b => minimaxRef L d st c a b false)
          (fun t a b => minimax L d t a b false) L
          (fun st c a b => ih st c a b false) cell]
        simp
      | false =>
        simp only [minimaxRef, minimax, if_neg ht]
        rw [minLoopRef_agree
          (fun st c a b => minimaxRef L d st c a b true)
          (fun t a b => minimax L d t a b true) L
          (fun st c a b => ih st c a b true) cell]
        simp

theorem rootLoopRef_agree (L : GameLogic GameState Move)
    [Inhabited GameState] (d : Nat) (cell : Nat) :
    ∀ (store : List GameState) (ms : List Move) (bm : Move) (bs : Int)
      (isMax : Bool) (n : Nat),
      rootLoopRef L d cell store ms bm bs isMax
        = ((rootLoop (fun m => minimax L d
              (L.applyMove (store.getD cell default) m)
              (-32000) 32000 (!isMax)) ms bm bs isMax n).1,
           (rootLoop (fun m => minimax L d
              (L.applyMove (store.getD cell default) m)
              (-32000) 32000 (!isMax)) ms bm bs isMax n).2.1,
           store) := by
  intro store ms
  induction ms with
  | nil =>
    intro bm bs isMax n
    cases isMax <;> simp [rootLoopRef, rootLoop]
  | cons m ms ih =>
    intro bm bs isMax n
    cases isMax with
    | true =>
      simp only [rootLoopRef, rootLoop, Bool.not_true, applyMoveAt,
        getD_concat, set_concat, take_concat]
      rw [minimaxRef_agree L d _ store.length, getD_concat, take_concat]
      by_cases hc : (minimax L d (L.applyMove (store.getD cell default) m)
          (-32000) 32000 false).1 > bs
      · rw [if_pos hc, if_pos hc]
        exact ih m _ true _
      · rw [if_neg hc, if_neg hc]
        exact ih bm bs true _
    | false =>
      simp only [rootLoopRef, rootLoop, Bool.not_false, applyMoveAt,
        getD_concat, set_concat, take_concat]
      rw [minimaxRef_agree L d _ store.length, getD_concat, take_concat]
      by_cases hc : (minimax L d (L.applyMove (store.getD cell default) m)
          (-32000) 32000 true).1 < bs
      · rw [if_pos hc, if_pos hc]
        exact ih m _ false _
      · rw [if_neg hc, if_neg hc]
        exact ih bm bs false _

/-- C9.  For every root call, the caller's `GameState` is never mutated
by the engine: run over an explicit store, `findBestMove` hands back
the store — and in particular the caller's cell — exactly as it
received it, because every `applyMove` during the search is performed
on a freshly pushed private copy; and it computes the same move and
best score as the pure model on the caller's state. -/
theorem findBestMove_preserves_state (L : GameLogic GameState Move)
    [Inhabited GameState] [Inhabited Move] (maxDepth : Nat)
    (store : List GameState) (cell : Nat) (es : EngineState) :
    (findBestMoveRef L maxDepth store cell es).2.2 = store ∧
    (findBestMoveRef L maxDepth store cell es).1
      = (findBestMove L maxDepth (store.getD cell default) es).1 ∧
    (findBestMoveRef L maxDepth store cell es).2.1
      = getBestScore (findBestMove L maxDepth
          (store.getD cell default) es).2 := by
  simp only [findBestMoveRef, findBestMove, getBestScore]
  by_cases hlen : (L.generateMoves (store.getD cell default)).length = 0
  · rw [if_pos hlen, if_pos hlen]
    exact ⟨rfl, rfl, rfl⟩
  · rw [if_neg hlen, if_neg hlen]
    rw [rootLoopRef_agree L (maxDepth - 1) cell store
      (L.generateMoves (store.getD cell default)) default
      (if L.isMaximizingPlayer (store.getD cell default) then -32000
        else 32000)
      (L.isMaximizingPlayer (store.getD cell default)) 0]
    exact ⟨rfl, rfl, rfl⟩

end MinimaxSpec
